import Mathlib

/-!
# Verification of the weather-data ingestion pipeline

Shallow embedding of the two ingestion tools of this repository,
`src/download_ncei.py` and `src/download_storm_events.py`, together with
proofs about the properties their specification states.

The embedding covers:
* the watermark computation and pre-emptive truncation of the sink
  (`download_and_process_files`, the part before the download thread starts);
* the `since_year` and watermark period filters over the listed file names,
  including Python truthiness of the guards and the `int(...)` parses;
* the producer (`download_files`) / consumer (main `while True` loop)
  pipeline: a sequential model of each loop, and an interleaved small-step
  machine for the concurrent bounded-queue behaviour.

Machine integers are modelled as `Int`/`Nat`; Python `//` is `Int.fdiv`;
fallible code (the `int()` parse inside a list comprehension) returns
`Except`/`Option`.
-/

/-! ## Python-level helpers -/

/-- Python truthiness of an `int`-or-`None` value: `None` and `0` are falsy.
Models `if since_year:` and `if max_date:` guards on integer values. -/
def pyTruthyI : Option Int → Bool
  | none => false
  | some n => n != 0

/-- Numeric value of a decimal digit character. -/
def digitVal (c : Char) : Nat := c.toNat - 48

/-- Value of a list of decimal digit characters, most significant first. -/
def natOfDigits (cs : List Char) : Nat :=
  cs.foldl (fun n c => 10 * n + digitVal c) 0

/-- Python `int(s)` restricted to the strings this repository ever parses:
a non-empty all-digit string succeeds, anything else raises `ValueError`
(modelled as `none`). -/
def pyIntDigits (cs : List Char) : Option Int :=
  if !cs.isEmpty && cs.all Char.isDigit then some (natOfDigits cs) else none

/-- Lexicographic comparison of strings by code point, as Python `<=` on
`str` (and hence `list.sort()` order). -/
def lexLe : List Char → List Char → Bool
  | [], _ => true
  | _ :: _, [] => false
  | a :: as, b :: bs =>
    if a.toNat < b.toNat then true
    else if b.toNat < a.toNat then false
    else lexLe as bs

/-- String-level view of `lexLe`. -/
def strLe (a b : String) : Bool := lexLe a.data b.data

/-- Insert into a `strLe`-sorted list, keeping earlier-inserted equal
elements in place (stability). -/
def insertLex (x : String) : List String → List String
  | [] => [x]
  | y :: ys => if strLe x y then x :: y :: ys else y :: insertLex x ys

/-- Model of Python `files.sort()`: a stable sort by `strLe`.  Python uses a
different stable sorting algorithm, but on a total order a stable sort's
output is determined by the input, so any stable sort is an exact model. -/
def pySort (files : List String) : List String :=
  files.foldr insertLex []

/-! ## NCEI tool (`src/download_ncei.py`) -/

/-- A SQL `DATE` value. -/
structure PyDate where
  year : Int
  month : Int
  day : Int
deriving DecidableEq, Repr

/-- Lexicographic order on dates, as SQL compares `DATE`s. -/
def dateLe (a b : PyDate) : Bool :=
  if a.year != b.year then decide (a.year ≤ b.year)
  else if a.month != b.month then decide (a.month ≤ b.month)
  else decide (a.day ≤ b.day)

/-- The one column of the NCEI raw table the coordinator logic reads:
the `date` column, possibly `NULL`. -/
abbrev NceiTable := List (Option PyDate)

/-- SQL `MAX` over a list of non-`NULL` dates: `none` on the empty list. -/
def maxDate : List PyDate → Option PyDate
  | [] => none
  | d :: ds =>
    match maxDate ds with
    | none => some d
    | some m => some (if dateLe d m then m else d)

/-- Watermark query of `download_and_process_files` (download_ncei.py lines
31-55): `none` when the table does not exist or `MAX(date)` is `NULL`,
otherwise the maximum date. -/
def nceiWatermark : Option NceiTable → Option PyDate
  | none => none
  | some rows => maxDate (rows.filterMap id)

/-- `EXTRACT(YEAR FROM date) = y` for one row: `NULL` dates compare as
not-equal (SQL three-valued logic makes the predicate `NULL`, so the row is
not deleted). -/
def nceiRowHasYear (y : Int) : Option PyDate → Bool
  | none => false
  | some d => d.year == y

/-- The truncation step of download_ncei.py lines 83-112: the `DELETE` is
only executed when the row count for the year is positive (the result is
the same either way). -/
def nceiTruncate (rows : NceiTable) (y : Int) : NceiTable :=
  if 0 < rows.countP (nceiRowHasYear y) then
    rows.filter (fun r => !nceiRowHasYear y r)
  else rows

/-- The sink state handed to the fetch/load pipeline: the watermark is read,
and when present the watermark year is truncated, before the download
thread is started (download_ncei.py lines 31-119 all precede line 174). -/
def nceiPrepareDb (db : Option NceiTable) : Option NceiTable :=
  match nceiWatermark db with
  | none => db
  | some d => db.map (fun rows => nceiTruncate rows d.year)

/-- `int(f[:4])` — the period key used by the `since_year` filter
(download_ncei.py line 75). -/
def nceiSinceKey (f : String) : Option Int := pyIntDigits (f.data.take 4)

/-- `int(f.split(".")[0])` — the period key used by the watermark filter
(download_ncei.py line 115). -/
def nceiWmKey (f : String) : Option Int :=
  pyIntDigits (f.data.takeWhile (fun c => c != '.'))

/-- One Python list comprehension `[f for f in files if key(f) >= y]`:
the key is computed for every element, and a parse failure raises (models
`ValueError` escaping `download_and_process_files`). -/
def nceiFilterGE (key : String → Option Int) (y : Int) :
    List String → Except Unit (List String)
  | [] => Except.ok []
  | f :: rest =>
    match key f with
    | none => Except.error ()
    | some k =>
      match nceiFilterGE key y rest with
      | Except.error e => Except.error e
      | Except.ok r => Except.ok (if y ≤ k then f :: r else r)

/-- The `since_year` filter (download_ncei.py lines 74-76): guarded by
Python truthiness of `since_year`. -/
def nceiApplySince (files : List String) : Option Int → Except Unit (List String)
  | none => Except.ok files
  | some y => if y = 0 then Except.ok files else nceiFilterGE nceiSinceKey y files

/-- The watermark filter (download_ncei.py lines 114-119): applied whenever
a watermark date was found (a Python `date` object is always truthy). -/
def nceiApplyWm (files : List String) : Option Int → Except Unit (List String)
  | none => Except.ok files
  | some w => nceiFilterGE nceiWmKey w files

/-- Candidate pipeline of the NCEI coordinator: sort the listing, apply the
`since_year` filter, then the watermark filter (download_ncei.py
lines 68-119).  `maxYear` is `(nceiWatermark db).map (·.year)`. -/
def nceiCandidateList (listing : List String) (sinceYear : Option Int)
    (maxYear : Option Int) : Except Unit (List String) :=
  match nceiApplySince (pySort listing) sinceYear with
  | Except.error e => Except.error e
  | Except.ok fs => nceiApplyWm fs maxYear

/-! ## Storm-events tool (`src/download_storm_events.py`) -/

/-- Attempt of the regex `_d(\d{4})_` at the head of the character list. -/
def matchD : List Char → Option Int
  | '_' :: 'd' :: c1 :: c2 :: c3 :: c4 :: '_' :: _ =>
    if c1.isDigit && c2.isDigit && c3.isDigit && c4.isDigit then
      some (((digitVal c1 * 10 + digitVal c2) * 10 + digitVal c3) * 10 + digitVal c4 : Nat)
    else none
  | _ => none

/-- `re.search`: try the pattern at each position, leftmost match wins. -/
def extractYearAux : List Char → Option Int
  | [] => none
  | c :: rest =>
    match matchD (c :: rest) with
    | some v => some v
    | none => extractYearAux rest

/-- `extract_year_from_filename` (download_storm_events.py lines 19-27):
`re.search(r'_d(\d{4})_', filename)`, returning the 4-digit year or `None`. -/
def extract_year_from_filename (f : String) : Option Int :=
  extractYearAux f.data

/-- One row of the storm-events table, restricted to the two columns the
coordinator logic reads: `BEGIN_YEARMONTH` and `YEAR` (both nullable
`BIGINT`s). -/
structure StormRow where
  bym : Option Int
  yr : Option Int
deriving DecidableEq, Repr

abbrev StormTable := List StormRow

/-- SQL `MAX` over non-`NULL` `BIGINT`s. -/
def maxInt : List Int → Option Int
  | [] => none
  | d :: ds =>
    match maxInt ds with
    | none => some d
    | some m => some (if d ≤ m then m else d)

/-- Watermark query of the storm tool (download_storm_events.py lines
105-129): `MAX(BEGIN_YEARMONTH)`, `none` when the table is absent or empty
of non-`NULL` values. -/
def stormWatermark : Option StormTable → Option Int
  | none => none
  | some rows => maxInt (rows.filterMap (·.bym))

/-- `WHERE YEAR = y` on one row (`NULL` year never matches). -/
def stormRowHasYear (y : Int) (r : StormRow) : Bool :=
  match r.yr with
  | none => false
  | some k => k == y

/-- The `DELETE FROM ... WHERE YEAR = max_year` step, with its
row-count guard (download_storm_events.py lines 176-189). -/
def stormTruncate (rows : StormTable) (y : Int) : StormTable :=
  if 0 < rows.countP (stormRowHasYear y) then
    rows.filter (fun r => !stormRowHasYear y r)
  else rows

/-- The sink state handed to the pipeline by the storm tool: truncation of
`max_date // 100` is guarded by Python truthiness of **both** `max_date`
(line 158 `if max_date:`) and `max_year` (line 163 `if max_year:`). -/
def stormPrepareDb (db : Option StormTable) : Option StormTable :=
  match stormWatermark db with
  | none => db
  | some m =>
    if m = 0 then db
    else
      let my := Int.fdiv m 100
      if my = 0 then db
      else db.map (fun rows => stormTruncate rows my)

/-- The per-file predicate `if file_year and file_year >= bound` of the
storm filters: an unextractable year or the (falsy) year `0` drops the
file. -/
def stormKeep (bound : Int) (f : String) : Bool :=
  match extract_year_from_filename f with
  | none => false
  | some k => if k = 0 then false else decide (bound ≤ k)

/-- The storm `since_year` filter (download_storm_events.py lines 147-155),
guarded by truthiness of `since_year`. -/
def stormApplySince (files : List String) : Option Int → List String
  | none => files
  | some y => if y = 0 then files else files.filter (stormKeep y)

/-- The storm watermark filter (download_storm_events.py lines 158-204):
`max_date` truthiness, then `max_year = max_date // 100` truthiness, then
the per-file filter against `max_year`. -/
def stormApplyWm (files : List String) : Option Int → List String
  | none => files
  | some m =>
    if m = 0 then files
    else
      let my := Int.fdiv m 100
      if my = 0 then files else files.filter (stormKeep my)

/-- Candidate pipeline of the storm coordinator: sort, `since_year` filter,
watermark filter (download_storm_events.py lines 142-204). -/
def stormCandidateList (listing : List String) (sinceYear : Option Int)
    (maxDateWm : Option Int) : List String :=
  stormApplyWm (stormApplySince (pySort listing) sinceYear) maxDateWm

/-! ## Transfer channel items and the sequential stage models

The transfer channel carries either a staged file or the terminal `None`
marker (`file_queue.put((filename, temp_file_path))` / `file_queue.put(None)`).
File names are abstracted by an arbitrary type with decidable equality. -/

/-- A `TransferItem`: a staged file or the terminal end-of-stream marker. -/
inductive Item (α : Type) where
  | file (f : α)
  | term
deriving DecidableEq

/-- The staged files pushed before the first terminal marker (everything the
consumer will dequeue and process). -/
def filesBeforeTerm {α : Type} : List (Item α) → List α
  | [] => []
  | Item.term :: _ => []
  | Item.file f :: rest => f :: filesBeforeTerm rest

/-- The body of the `download_files` loop (download_ncei.py lines 142-162,
download_storm_events.py lines 229-249), as the sequence of items it pushes.
`stopPre i` is the stop flag observed at the top of iteration `i`,
`dlOk i` tells whether the transfer of iteration `i` succeeds (an exception
jumps to the `finally`), and `stopPost i` is the flag observed right after
the transfer (a set flag discards the just-downloaded file and breaks). -/
def fetchBody {α : Type} (stopPre stopPost dlOk : Nat → Bool) :
    List α → Nat → List (Item α)
  | [], _ => []
  | f :: rest, i =>
    if stopPre i then []
    else if !dlOk i then []
    else if stopPost i then []
    else Item.file f :: fetchBody stopPre stopPost dlOk rest (i + 1)

/-- The whole producer including its `finally`: the loop body's pushes
followed by the unconditional terminal marker (download_ncei.py lines
163-165). -/
def fetcherSent {α : Type} (stopPre stopPost dlOk : Nat → Bool)
    (files : List α) : List (Item α) :=
  fetchBody stopPre stopPost dlOk files 0 ++ [Item.term]

/-- Result of one per-file load (`INSERT ... FROM read_csv_auto` block):
success or a raised error. -/
inductive LoadRes where
  | ok
  | fail
deriving DecidableEq

/-- Observable events of the consumer loop, in order: a successful insert,
a caught-and-logged per-file error (carrying the filename, as
`print(f"Error processing {filename}: ...")` does), and the `finally`
deletion of the staged file. -/
inductive LEv (α : Type) where
  | ins (f : α)
  | err (f : α)
  | del (f : α)
deriving DecidableEq

/-- Exit status of the consumer loop. -/
inductive LExit where
  | term
  | cancelled
  | waiting
deriving DecidableEq

/-- The consumer loop (download_ncei.py lines 176-263): it processes the
items available on the channel in order.  On a staged file it attempts the
load (`res`), logging an error instead of propagating it, and always emits
the `finally` deletion; on the terminal marker it breaks; when the channel
is exhausted it breaks if the stop flag is set (the `queue.Empty` branch)
and otherwise keeps polling (`.waiting`). -/
def loaderRunS {α : Type} (stop : Bool) (res : α → LoadRes) :
    List (Item α) → List (LEv α) × LExit
  | [] => ([], if stop then LExit.cancelled else LExit.waiting)
  | Item.term :: _ => ([], LExit.term)
  | Item.file f :: rest =>
    let p := loaderRunS stop res rest
    ((match res f with
      | LoadRes.ok => LEv.ins f
      | LoadRes.fail => LEv.err f) :: LEv.del f :: p.1, p.2)

/-! ## Interleaved machine for the two-thread pipeline

A small-step machine over the shared state of `download_and_process_files`
while the download thread is alive: the producer's program counter, the
bounded queue (capacity 2), the consumer, the stop flag, and event logs
(created / removed staging files, push order, insert order). -/

/-- Producer phase: inside the `for` loop, in the `finally` (about to push
the terminal marker), or finished. -/
inductive Fphase where
  | run
  | fin
  | done
deriving DecidableEq

/-- Shared state of the pipeline machine. -/
structure MState (α : Type) where
  /-- files not yet downloaded (suffix of the candidate list) -/
  pending : List α
  /-- file downloaded to staging, not yet pushed -/
  hold : Option α
  /-- the post-download stop check has been passed for `hold` -/
  checked : Bool
  /-- the bounded transfer queue, FIFO, capacity 2 -/
  queue : List (Item α)
  /-- file currently being loaded by the consumer -/
  busy : Option α
  /-- the shared `stop_event` flag -/
  stop : Bool
  /-- producer phase -/
  fphase : Fphase
  /-- consumer has left its loop -/
  ldone : Bool
  /-- the `TemporaryDirectory` context has been exited -/
  cleaned : Bool
  /-- log: staged files created (download completed), in order -/
  created : List α
  /-- log: staging-file removal events, with multiplicity -/
  removed : List α
  /-- log: staged files pushed onto the queue, in order -/
  pushed : List α
  /-- log: files whose load was attempted by the consumer, in order -/
  loaded : List α

/-- The staged files currently sitting in the queue. -/
def queueFiles {α : Type} : List (Item α) → List α :=
  List.filterMap (fun i => match i with | Item.file f => some f | Item.term => none)

/-- Staged files awaiting load: buffered in the channel or held by the
producer after download, not counting the one the consumer is processing. -/
def stagedAwaiting {α : Type} (s : MState α) : Nat :=
  (queueFiles s.queue).length + (match s.hold with | some _ => 1 | none => 0)

/-- Initial state: candidate list computed, queue empty, both loops about
to start (download_ncei.py lines 124-177). -/
def initM {α : Type} (files : List α) : MState α :=
  { pending := files, hold := none, checked := false, queue := [], busy := none,
    stop := false, fphase := Fphase.run, ldone := false, cleaned := false,
    created := [], removed := [], pushed := [], loaded := [] }

/-- One interleaved step of the pipeline.  Producer steps embed
`download_files` (download_ncei.py lines 142-165), consumer steps the main
loop (lines 176-263), `sigint` the signal handler (lines 132-134), and
`cleanup` the exit of the `TemporaryDirectory` context (line 124). -/
inductive Step {α : Type} : MState α → MState α → Prop where
  /-- loop top: stop flag clear, download the next file into staging -/
  | download (s : MState α) (f : α) (rest : List α) :
      s.fphase = Fphase.run → s.hold = none → s.stop = false →
      s.pending = f :: rest →
      Step s { s with pending := rest, hold := some f, checked := false,
                      created := s.created ++ [f] }
  /-- loop top: stop flag set, break to the `finally` -/
  | stopPre (s : MState α) :
      s.fphase = Fphase.run → s.hold = none → s.stop = true →
      Step s { s with fphase := Fphase.fin }
  /-- loop top: candidate list exhausted, fall through to the `finally` -/
  | exhaust (s : MState α) :
      s.fphase = Fphase.run → s.hold = none → s.pending = [] →
      Step s { s with fphase := Fphase.fin }
  /-- a transfer raises: the exception propagates to the `finally` -/
  | fetchErr (s : MState α) (f : α) (rest : List α) :
      s.fphase = Fphase.run → s.hold = none → s.stop = false →
      s.pending = f :: rest →
      Step s { s with fphase := Fphase.fin }
  /-- post-download stop check observes a clear flag -/
  | checkPass (s : MState α) (f : α) :
      s.fphase = Fphase.run → s.hold = some f → s.checked = false →
      s.stop = false →
      Step s { s with checked := true }
  /-- post-download stop check observes a set flag: remove the staged file
      and break to the `finally` -/
  | checkStop (s : MState α) (f : α) :
      s.fphase = Fphase.run → s.hold = some f → s.checked = false →
      s.stop = true →
      Step s { s with hold := none, checked := false, fphase := Fphase.fin,
                      removed := s.removed ++ [f] }
  /-- `file_queue.put(...)` completes: only when a slot is free (capacity
      2); the stop flag is *not* re-checked between the check and the put -/
  | push (s : MState α) (f : α) :
      s.fphase = Fphase.run → s.hold = some f → s.checked = true →
      s.queue.length < 2 →
      Step s { s with hold := none, checked := false,
                      queue := s.queue ++ [Item.file f],
                      pushed := s.pushed ++ [f] }
  /-- the `finally` pushes the terminal marker (also needs a free slot) -/
  | pushTerm (s : MState α) :
      s.fphase = Fphase.fin → s.queue.length < 2 →
      Step s { s with queue := s.queue ++ [Item.term], fphase := Fphase.done }
  /-- SIGINT: the handler sets the stop flag -/
  | sigint (s : MState α) :
      s.stop = false →
      Step s { s with stop := true }
  /-- consumer dequeues a staged file and starts loading it -/
  | takeFile (s : MState α) (f : α) (rest : List (Item α)) :
      s.ldone = false → s.busy = none → s.queue = Item.file f :: rest →
      Step s { s with busy := some f, queue := rest }
  /-- consumer dequeues the terminal marker and breaks -/
  | takeTerm (s : MState α) (rest : List (Item α)) :
      s.ldone = false → s.busy = none → s.queue = Item.term :: rest →
      Step s { s with ldone := true, queue := rest }
  /-- consumer finishes one file (with or without a load error) and the
      `finally` removes its staging file -/
  | finishFile (s : MState α) (f : α) :
      s.ldone = false → s.busy = some f →
      Step s { s with busy := none, loaded := s.loaded ++ [f],
                      removed := s.removed ++ [f] }
  /-- consumer's poll times out on an empty queue with the stop flag set:
      break out of the loop -/
  | stopExit (s : MState α) :
      s.ldone = false → s.busy = none → s.queue = [] → s.stop = true →
      Step s { s with ldone := true }
  /-- both loops have ended: the `TemporaryDirectory` context exits,
      removing whatever staging files are left.  (In the code the context
      exits when the consumer loop ends and the producer is then joined
      with a bounded timeout; a producer still past the stop flag only
      discards or terminates, so sequencing cleanup after `fphase = done`
      covers the same removal outcomes.) -/
  | cleanup (s : MState α) :
      s.fphase = Fphase.done → s.ldone = true → s.cleaned = false →
      Step s { s with cleaned := true, queue := [],
                      removed := s.removed ++ queueFiles s.queue }

/-- Reachability by zero or more steps. -/
inductive Reaches {α : Type} : MState α → MState α → Prop where
  | refl (s : MState α) : Reaches s s
  | tail {s t u : MState α} : Reaches s t → Step t u → Reaches s u

/-! ## Counting helpers and the machine invariant -/

/-- Number of occurrences of `f` in `l`. -/
def occ {α : Type} [DecidableEq α] (f : α) (l : List α) : Nat :=
  l.countP (fun x => decide (x = f))

/-- The zero-or-one-element list of an `Option`. -/
def optList {α : Type} : Option α → List α
  | none => []
  | some g => [g]

/-- Invariant of the pipeline machine, relative to the initial candidate
list `files`.  It packages the bounded-queue property, staging-file
accounting, the FIFO ordering facts, and bookkeeping about the phases. -/
structure PipeInv {α : Type} [DecidableEq α] (files : List α) (s : MState α) : Prop where
  /-- the bounded queue never holds more than its capacity 2 -/
  qlen : s.queue.length ≤ 2
  /-- every created staging file is in exactly one place: removed, held by
      the producer, buffered in the queue, or being loaded -/
  acct : ∀ f : α, occ f s.created =
    occ f s.removed + occ f (optList s.hold) + occ f (queueFiles s.queue) +
      occ f (optList s.busy)
  /-- once the producer leaves its loop it holds no staged file -/
  holdPhase : s.fphase ≠ Fphase.run → s.hold = none
  /-- the consumer only exits between items -/
  busyDone : s.ldone = true → s.busy = none
  /-- once the staging directory is cleaned, everything has ended -/
  cleanedFacts : s.cleaned = true →
    s.fphase = Fphase.done ∧ s.ldone = true ∧ s.queue = [] ∧ s.hold = none ∧
      s.busy = none
  /-- files are downloaded from the candidate list, each at most as often
      as it occurs there -/
  createdPending : ∀ f : α, occ f s.created + occ f s.pending = occ f files
  /-- FIFO: the push order is exactly insert order + in-flight + buffered -/
  pushOrdLive : s.cleaned = false →
    s.pushed = s.loaded ++ optList s.busy ++ queueFiles s.queue
  /-- after cleanup the insert order is still a prefix of the push order -/
  pushOrdDone : s.cleaned = true → ∃ r, s.pushed = s.loaded ++ r
  /-- pushes happen in candidate-list order: the pushed sequence (plus the
      held file) is a sublist of the already-consumed prefix of `files` -/
  pushSub : ∃ dn, files = dn ++ s.pending ∧
    List.Sublist (s.pushed ++ optList s.hold) dn

/-! ## Well-formed archive names -/

/-- A well-formed NCEI `by_year` file name: exactly `YYYY.csv.gz` with four
decimal digits (the naming scheme of the NCEI archive). -/
def nceiWF (f : String) : Prop :=
  ∃ c1 c2 c3 c4 : Char, c1.isDigit ∧ c2.isDigit ∧ c3.isDigit ∧ c4.isDigit ∧
    f.data = [c1, c2, c3, c4] ++ ".csv.gz".data

/-- A well-formed storm-events file name: the standard fixed prefix,
then the 4-digit `d`-year, then `_` and anything (the `cYYYYMMDD.csv.gz`
part plays no role in the period key). -/
def stormWF (f : String) : Prop :=
  ∃ (c1 c2 c3 c4 : Char) (r : List Char),
    c1.isDigit ∧ c2.isDigit ∧ c3.isDigit ∧ c4.isDigit ∧
    f.data = "StormEvents_details-ftp_v1.0_d".data ++ [c1, c2, c3, c4] ++ '_' :: r

/-- Defaulted period key of a file name under an extraction rule. -/
def keyD (key : String → Option Int) (f : String) : Int := (key f).getD 0

/-! ## Concrete states for witnesses and counterexamples -/

/-- A storm-events sink whose single row has `BEGIN_YEARMONTH = 0` and
`YEAR = 0`: the watermark exists (`MAX` is `0`, not `NULL`) but is falsy in
Python. -/
def stormDb0 : Option StormTable := some [{ bym := some 0, yr := some 0 }]

/-- The pipeline state reached by downloading files `1`, `2`, `3`, pushing
`1` and `2`, while the consumer never runs: the producer holds staged file
`3` while the queue buffers two more. -/
def c7State : MState Nat :=
  { pending := [], hold := some 3, checked := false,
    queue := [Item.file 1, Item.file 2], busy := none, stop := false,
    fphase := Fphase.run, ldone := false, cleaned := false,
    created := [1, 2, 3], removed := [], pushed := [1, 2], loaded := [] }

/-- Final state of a complete one-file run of the pipeline machine. -/
def c5Final : MState Nat :=
  { pending := [], hold := none, checked := false, queue := [], busy := none,
    stop := false, fphase := Fphase.done, ldone := true, cleaned := true,
    created := [7], removed := [7], pushed := [7], loaded := [7] }

/-! ## Helper lemmas -/

theorem occ_append {α : Type} [DecidableEq α] (f : α) (l m : List α) :
    occ f (l ++ m) = occ f l + occ f m := by
  simp [occ, List.countP_append]

theorem occ_cons {α : Type} [DecidableEq α] (f x : α) (l : List α) :
    occ f (x :: l) = occ f l + (if x = f then 1 else 0) := by
  simp [occ, List.countP_cons]

theorem occ_nil {α : Type} [DecidableEq α] (f : α) : occ f ([] : List α) = 0 := rfl

/-- Rows surviving the count-guarded delete never satisfy the predicate. -/
theorem mem_guarded_filter {α : Type} (p : α → Bool) (l : List α) (r : α)
    (h : r ∈ if 0 < l.countP p then l.filter (fun x => !p x) else l) :
    p r = false := by
  split at h
  · have := (List.mem_filter.mp h).2
    simpa using this
  · have hz : l.countP p = 0 := Nat.eq_zero_of_not_pos (by assumption)
    have := List.countP_eq_zero.mp hz r h
    simpa using this

/-- The fetch loop body never emits the terminal marker. -/
theorem fetchBody_no_term {α : Type} (sp st dl : Nat → Bool) :
    ∀ (l : List α) (i : Nat), Item.term ∉ fetchBody sp st dl l i := by
  intro l
  induction l with
  | nil => intro i; simp [fetchBody]
  | cons f rest ih =>
    intro i
    simp only [fetchBody]
    split
    · simp
    · split
      · simp
      · split
        · simp
        · intro hmem
          rcases List.mem_cons.mp hmem with h | h
          · exact Item.noConfusion h
          · exact ih (i + 1) h

/-! ## Claim theorems -/

/-- C1 (counterexample): in the storm-events tool a watermark can be
present (the table exists and contains a row, `MAX(BEGIN_YEARMONTH)` is `0`,
not `NULL`) while the pre-emptive truncation is skipped entirely — the
Python guard `if max_date:` treats the watermark `0` as absent — so a row
of the exact watermark period (year `0 // 100 = 0`) survives into the
fetch/load phase. -/
theorem c1_counterexample :
    stormWatermark stormDb0 = some 0 ∧
    stormPrepareDb stormDb0 = some [{ bym := some 0, yr := some 0 }] ∧
    stormRowHasYear (Int.fdiv 0 100) { bym := some 0, yr := some 0 } = true :=
  ⟨rfl, rfl, rfl⟩

/-- C1 (amended): whenever a watermark is present at start, the coordinator
deletes every sink row of the exact watermark period before the pipeline
starts — unconditionally so in the NCEI tool, and in the storm-events tool
provided the watermark value and its derived year are nonzero (the Python
truthiness guards `if max_date:` and `if max_year:` skip the truncation for
the zero values). -/
theorem c1_amended_truncation :
    (∀ (db : Option NceiTable) (d : PyDate), nceiWatermark db = some d →
      ∃ rows, nceiPrepareDb db = some rows ∧
        ∀ r ∈ rows, nceiRowHasYear d.year r = false) ∧
    (∀ (db : Option StormTable) (m : Int), stormWatermark db = some m →
      m ≠ 0 → Int.fdiv m 100 ≠ 0 →
      ∃ rows, stormPrepareDb db = some rows ∧
        ∀ r ∈ rows, stormRowHasYear (Int.fdiv m 100) r = false) := by
  constructor
  · intro db d h
    match db, h with
    | some tbl, h =>
      refine ⟨nceiTruncate tbl d.year, ?_, ?_⟩
      · simp [nceiPrepareDb, h]
      · intro r hr
        exact mem_guarded_filter (nceiRowHasYear d.year) tbl r (by simpa [nceiTruncate] using hr)
  · intro db m h hm hmy
    match db, h with
    | some tbl, h =>
      refine ⟨stormTruncate tbl (Int.fdiv m 100), ?_, ?_⟩
      · simp [stormPrepareDb, h, hm, hmy]
      · intro r hr
        exact mem_guarded_filter (stormRowHasYear (Int.fdiv m 100)) tbl r
          (by simpa [stormTruncate] using hr)

/-- C1 (witness): the amended theorem applied to two concrete sinks — an
NCEI table whose max date is 2020-05-01, and a storm table whose max
`BEGIN_YEARMONTH` is 202012. -/
theorem c1_witness :
    (∃ rows, nceiPrepareDb (some [some ⟨2020, 5, 1⟩]) = some rows ∧
      ∀ r ∈ rows, nceiRowHasYear 2020 r = false) ∧
    (∃ rows, stormPrepareDb (some [{ bym := some 202012, yr := some 2020 }]) = some rows ∧
      ∀ r ∈ rows, stormRowHasYear (Int.fdiv 202012 100) r = false) :=
  ⟨c1_amended_truncation.1 (some [some ⟨2020, 5, 1⟩]) ⟨2020, 5, 1⟩ rfl,
   c1_amended_truncation.2 (some [{ bym := some 202012, yr := some 2020 }]) 202012 rfl
     (by decide) (by decide)⟩

/-- C3: however the fetch loop ends — candidate list exhausted, stop flag
observed (before or after a transfer), or a transfer error — the producer
pushes exactly one terminal marker, and it comes after every staged file it
pushes: the pushed sequence is some staged files followed by a single
trailing terminal marker. -/
theorem c3_exactly_one_terminal {α : Type} [DecidableEq α]
    (stopPre stopPost dlOk : Nat → Bool) (files : List α) :
    ∃ body : List (Item α),
      fetcherSent stopPre stopPost dlOk files = body ++ [Item.term] ∧
      Item.term ∉ body ∧
      (fetcherSent stopPre stopPost dlOk files).count Item.term = 1 := by
  refine ⟨fetchBody stopPre stopPost dlOk files 0, rfl,
    fetchBody_no_term stopPre stopPost dlOk files 0, ?_⟩
  have h0 : (fetchBody stopPre stopPost dlOk files 0).count Item.term = 0 :=
    List.count_eq_zero.mpr (fetchBody_no_term stopPre stopPost dlOk files 0)
  simp [fetcherSent, List.count_append, h0]


/-- Every file before the terminal marker is processed by the consumer
loop: deletion always happens, a failure is logged, a success inserts. -/
theorem loader_processes_all {α : Type} [DecidableEq α]
    (stop : Bool) (res : α → LoadRes) :
    ∀ (items : List (Item α)) (g : α), g ∈ filesBeforeTerm items →
      LEv.del g ∈ (loaderRunS stop res items).1 ∧
      (res g = LoadRes.fail → LEv.err g ∈ (loaderRunS stop res items).1) ∧
      (res g = LoadRes.ok → LEv.ins g ∈ (loaderRunS stop res items).1) := by
  intro items
  induction items with
  | nil => intro g hg; simp [filesBeforeTerm] at hg
  | cons i rest ih =>
    intro g hg
    match i with
    | Item.term => simp [filesBeforeTerm] at hg
    | Item.file x =>
      simp only [filesBeforeTerm, List.mem_cons] at hg
      rcases hg with h | h
      · subst h
        refine ⟨by simp [loaderRunS], ?_, ?_⟩
        · intro hfail; simp [loaderRunS, hfail]
        · intro hok; simp [loaderRunS, hok]
      · have htail := ih g h
        refine ⟨?_, ?_, ?_⟩
        · simp only [loaderRunS]
          exact List.mem_cons_of_mem _ (List.mem_cons_of_mem _ htail.1)
        · intro hfail
          simp only [loaderRunS]
          exact List.mem_cons_of_mem _ (List.mem_cons_of_mem _ (htail.2.1 hfail))
        · intro hok
          simp only [loaderRunS]
          exact List.mem_cons_of_mem _ (List.mem_cons_of_mem _ (htail.2.2 hok))

/-- C4: every staged file that arrives before the terminal marker is fully
handled by the consumer loop: a failing load is logged with its filename
(the error is caught, not propagated) and its staging file is still
deleted, and every other file before the marker is still processed
(successful loads still insert) — one corrupt file never stops the loop. -/
theorem c4_per_file_error_isolated {α : Type} [DecidableEq α]
    (stop : Bool) (res : α → LoadRes) (items : List (Item α)) (f : α)
    (hf : f ∈ filesBeforeTerm items) :
    LEv.del f ∈ (loaderRunS stop res items).1 ∧
    (res f = LoadRes.fail → LEv.err f ∈ (loaderRunS stop res items).1) ∧
    (∀ g ∈ filesBeforeTerm items, res g = LoadRes.ok →
      LEv.ins g ∈ (loaderRunS stop res items).1) :=
  ⟨(loader_processes_all stop res items f hf).1,
   (loader_processes_all stop res items f hf).2.1,
   fun g hg hok => (loader_processes_all stop res items g hg).2.2 hok⟩

/-- C4 (witness): a run whose first file's load fails and whose second
succeeds — the failure is logged, both staging files are deleted, and the
second file is still inserted. -/
theorem c4_witness :
    LEv.del 1 ∈ (loaderRunS true (fun g => if g = 1 then LoadRes.fail else LoadRes.ok)
      [Item.file 1, Item.file 2, Item.term]).1 ∧
    ((fun g => if g = 1 then LoadRes.fail else LoadRes.ok) 1 = LoadRes.fail →
      LEv.err 1 ∈ (loaderRunS true (fun g => if g = 1 then LoadRes.fail else LoadRes.ok)
        [Item.file 1, Item.file 2, Item.term]).1) ∧
    (∀ g ∈ filesBeforeTerm [Item.file 1, Item.file 2, Item.term],
      (fun g => if g = 1 then LoadRes.fail else LoadRes.ok) g = LoadRes.ok →
      LEv.ins g ∈ (loaderRunS true (fun g => if g = 1 then LoadRes.fail else LoadRes.ok)
        [Item.file 1, Item.file 2, Item.term]).1) :=
  c4_per_file_error_isolated true (fun g => if g = 1 then LoadRes.fail else LoadRes.ok)
    [Item.file 1, Item.file 2, Item.term] 1 (by decide)

/-- C9: the consumer's processing is independent of the stop flag while
items are available — after cancellation it still loads every staged file
already in the channel, every such file's staging copy is deleted, and the
cancellation exit is taken only when the poll finds the channel exhausted
without a terminal marker. -/
theorem c9_drain_before_cancel {α : Type} [DecidableEq α]
    (res : α → LoadRes) (items : List (Item α)) :
    (loaderRunS true res items).1 = (loaderRunS false res items).1 ∧
    ((loaderRunS true res items).2 = LExit.cancelled ↔ Item.term ∉ items) ∧
    (∀ f ∈ filesBeforeTerm items, LEv.del f ∈ (loaderRunS true res items).1) := by
  refine ⟨?_, ?_, ?_⟩
  · induction items with
    | nil => rfl
    | cons i rest ih =>
      match i with
      | Item.term => rfl
      | Item.file x => simp [loaderRunS, ih]
  · induction items with
    | nil => simp [loaderRunS]
    | cons i rest ih =>
      match i with
      | Item.term => simp [loaderRunS]
      | Item.file x => simpa [loaderRunS] using ih
  · intro f hf
    exact (loader_processes_all true res items f hf).1

/-- C9 (witness): with stop set and one staged file (and no terminal
marker yet) in the channel, the file is still processed and the exit is the
cancellation exit. -/
theorem c9_witness :
    (loaderRunS true (fun _ : Nat => LoadRes.ok) [Item.file 4]).1 =
      (loaderRunS false (fun _ : Nat => LoadRes.ok) [Item.file 4]).1 ∧
    ((loaderRunS true (fun _ : Nat => LoadRes.ok) [Item.file 4]).2 = LExit.cancelled ↔
      Item.term ∉ [Item.file 4]) ∧
    (∀ f ∈ filesBeforeTerm [Item.file 4],
      LEv.del f ∈ (loaderRunS true (fun _ : Nat => LoadRes.ok) [Item.file 4]).1) :=
  c9_drain_before_cancel (fun _ : Nat => LoadRes.ok) [Item.file 4]

/-- C10: passing `since_year = 0` disables the since-period filter entirely
(Python truthiness of `0`): for both tools the candidate list is exactly the
one produced with no `since_year` at all, whatever the listing and the
watermark state. -/
theorem c10_since_zero_ignored :
    ∀ (listing : List String) (wmN wmS : Option Int),
      nceiCandidateList listing (some 0) wmN = nceiCandidateList listing none wmN ∧
      stormCandidateList listing (some 0) wmS = stormCandidateList listing none wmS := by
  intro listing wmN wmS
  constructor
  · simp [nceiCandidateList, nceiApplySince]
  · simp [stormCandidateList, stormApplySince]

/-- A successfully parsed digit string is a non-negative integer. -/
theorem pyIntDigits_nonneg {cs : List Char} {k : Int}
    (h : pyIntDigits cs = some k) : 0 ≤ k := by
  unfold pyIntDigits at h
  split at h
  · injection h with h'
    subst h'
    exact Int.natCast_nonneg _
  · exact absurd h (by simp)

/-- A regex match yields a non-negative year. -/
theorem matchD_nonneg : ∀ {l : List Char} {k : Int}, matchD l = some k → 0 ≤ k := by
  intro l k h
  rw [matchD.eq_def] at h
  split at h
  · split at h
    · injection h with h'
      subst h'
      exact Int.natCast_nonneg _
    · exact absurd h (by simp)
  · exact absurd h (by simp)

/-- The scan only ever returns a value produced by a match. -/
theorem extractYearAux_nonneg : ∀ (l : List Char) {k : Int},
    extractYearAux l = some k → 0 ≤ k := by
  intro l
  induction l with
  | nil => intro k h; exact absurd h (by simp [extractYearAux])
  | cons c rest ih =>
    intro k h
    simp only [extractYearAux] at h
    split at h
    · injection h with h'
      subst h'
      exact matchD_nonneg (by assumption)
    · exact ih h

/-- An extracted year is a non-negative integer. -/
theorem extract_year_nonneg {f : String} {k : Int}
    (h : extract_year_from_filename f = some k) : 0 ≤ k :=
  extractYearAux_nonneg f.data h

/-- When every name parses, the comprehension returns exactly the names
whose key is at least the bound. -/
theorem nceiFilterGE_ok (key : String → Option Int) (y : Int) :
    ∀ files : List String, (∀ f ∈ files, key f ≠ none) →
      nceiFilterGE key y files =
        Except.ok (files.filter (fun f => decide (y ≤ keyD key f))) := by
  intro files
  induction files with
  | nil => intro h; rfl
  | cons f rest ih =>
    intro h
    have hf : key f ≠ none := h f (by simp)
    match hk : key f with
    | none => exact absurd hk hf
    | some k =>
      have hrest := ih (fun g hg => h g (by simp [hg]))
      simp only [nceiFilterGE, hk, hrest]
      by_cases hy : y ≤ k
      · simp [List.filter_cons, keyD, hk, hy]
      · simp [List.filter_cons, keyD, hk, hy]

/-- One unparseable name anywhere in the list makes the comprehension
raise. -/
theorem nceiFilterGE_err (key : String → Option Int) (y : Int) :
    ∀ (files : List String) (f : String), f ∈ files → key f = none →
      nceiFilterGE key y files = Except.error () := by
  intro files
  induction files with
  | nil => intro f h; simp at h
  | cons g rest ih =>
    intro f hmem hnone
    rcases List.mem_cons.mp hmem with h | h
    · subst h; simp [nceiFilterGE, hnone]
    · match hk : key g with
      | none => simp [nceiFilterGE, hk]
      | some k => simp [nceiFilterGE, hk, ih f h hnone]

/-- C2: over candidate lists whose names carry a parseable (and, for the
storm tool, truthy) period key, the period filters drop exactly the
candidates whose period is strictly below `since_year` (when given) and
those strictly below the watermark bound (when present); a candidate whose
period equals the watermark bound is always retained. -/
theorem c2_filter_drops_exactly :
    (∀ (files : List String) (y : Int), (∀ f ∈ files, nceiSinceKey f ≠ none) →
      nceiApplySince files (some y) =
        Except.ok (files.filter (fun f => decide (y ≤ keyD nceiSinceKey f)))) ∧
    (∀ (files : List String) (w : Int), (∀ f ∈ files, nceiWmKey f ≠ none) →
      nceiApplyWm files (some w) =
        Except.ok (files.filter (fun f => decide (w ≤ keyD nceiWmKey f))) ∧
      ∀ f ∈ files, keyD nceiWmKey f = w →
        f ∈ files.filter (fun f => decide (w ≤ keyD nceiWmKey f))) ∧
    (∀ (files : List String) (y : Int),
      (∀ f ∈ files, ∃ k, extract_year_from_filename f = some k ∧ k ≠ 0) →
      stormApplySince files (some y) =
        files.filter (fun f => decide (y ≤ keyD extract_year_from_filename f))) ∧
    (∀ (files : List String) (m : Int),
      (∀ f ∈ files, ∃ k, extract_year_from_filename f = some k ∧ k ≠ 0) →
      stormApplyWm files (some m) =
        files.filter (fun f => decide (Int.fdiv m 100 ≤ keyD extract_year_from_filename f)) ∧
      ∀ f ∈ files, keyD extract_year_from_filename f = Int.fdiv m 100 →
        f ∈ stormApplyWm files (some m)) := by
  have stormPt : ∀ (files : List String) (b : Int),
      (∀ f ∈ files, ∃ k, extract_year_from_filename f = some k ∧ k ≠ 0) →
      files.filter (stormKeep b) =
        files.filter (fun f => decide (b ≤ keyD extract_year_from_filename f)) := by
    intro files b h
    apply List.filter_congr
    intro f hf
    obtain ⟨k, hk, hk0⟩ := h f hf
    simp [stormKeep, hk, hk0, keyD]
  have stormAll : ∀ (files : List String) (b : Int), b ≤ 0 →
      (∀ f ∈ files, ∃ k, extract_year_from_filename f = some k ∧ k ≠ 0) →
      files.filter (fun f => decide (b ≤ keyD extract_year_from_filename f)) = files := by
    intro files b hb h
    apply List.filter_eq_self.mpr
    intro f hf
    obtain ⟨k, hk, hk0⟩ := h f hf
    have := extract_year_nonneg hk
    simp only [keyD, hk, Option.getD_some]
    exact decide_eq_true (le_trans hb this)
  refine ⟨?_, ?_, ?_, ?_⟩
  · intro files y h
    by_cases hy : y = 0
    · subst hy
      have : files.filter (fun f => decide ((0 : Int) ≤ keyD nceiSinceKey f)) = files := by
        apply List.filter_eq_self.mpr
        intro f hf
        match hk : nceiSinceKey f with
        | none => exact absurd hk (h f hf)
        | some k =>
          simp only [keyD, hk, Option.getD_some]
          exact decide_eq_true (pyIntDigits_nonneg hk)
      simp [nceiApplySince, this]
    · simp only [nceiApplySince, if_neg hy]
      exact nceiFilterGE_ok nceiSinceKey y files h
  · intro files w h
    refine ⟨nceiFilterGE_ok nceiWmKey w files h, ?_⟩
    intro f hf hkey
    exact List.mem_filter.mpr ⟨hf, by simp [hkey]⟩
  · intro files y h
    by_cases hy : y = 0
    · subst hy
      simp [stormApplySince, stormAll files 0 le_rfl h]
    · simp only [stormApplySince, if_neg hy]
      exact stormPt files y h
  · intro files m h
    have hmain : stormApplyWm files (some m) =
        files.filter (fun f => decide (Int.fdiv m 100 ≤ keyD extract_year_from_filename f)) := by
      by_cases hm : m = 0
      · subst hm
        have h1 : stormApplyWm files (some 0) = files := by simp [stormApplyWm]
        rw [h1]
        exact (stormAll files (Int.fdiv 0 100) (by decide) h).symm
      · by_cases hmy : Int.fdiv m 100 = 0
        · have h1 : stormApplyWm files (some m) = files := by
            simp [stormApplyWm, hm, hmy]
          rw [h1, hmy]
          exact (stormAll files 0 le_rfl h).symm
        · simp only [stormApplyWm, if_neg hm, if_neg hmy]
          exact stormPt files (Int.fdiv m 100) h
    refine ⟨hmain, ?_⟩
    intro f hf hkey
    rw [hmain]
    exact List.mem_filter.mpr ⟨hf, by simp [hkey]⟩

/-- C2 (witness): the filter characterization applied to concrete
two-element listings for both tools. -/
theorem c2_witness :
    nceiApplySince ["1999.csv.gz", "2020.csv.gz"] (some 2020) =
      Except.ok ((["1999.csv.gz", "2020.csv.gz"]).filter
        (fun f => decide ((2020 : Int) ≤ keyD nceiSinceKey f))) ∧
    stormApplySince
      ["StormEvents_details-ftp_v1.0_d2019_c20190101.csv.gz",
       "StormEvents_details-ftp_v1.0_d2021_c20210101.csv.gz"] (some 2020) =
      (["StormEvents_details-ftp_v1.0_d2019_c20190101.csv.gz",
        "StormEvents_details-ftp_v1.0_d2021_c20210101.csv.gz"]).filter
        (fun f => decide ((2020 : Int) ≤ keyD extract_year_from_filename f)) :=
  ⟨c2_filter_drops_exactly.1 ["1999.csv.gz", "2020.csv.gz"] 2020 (by decide),
   c2_filter_drops_exactly.2.2.1
     ["StormEvents_details-ftp_v1.0_d2019_c20190101.csv.gz",
      "StormEvents_details-ftp_v1.0_d2021_c20210101.csv.gz"] 2020 (by decide)⟩

/-- C8 (counterexample): a listed name whose leading characters do not
parse as an integer is not silently excluded by the NCEI tool — with a
`since_year` given, the candidate-list computation raises (`ValueError`
from `int(f[:4])`), failing the run. -/
theorem c8_counterexample :
    nceiCandidateList ["abcd.csv.gz"] (some 2000) none = Except.error () := rfl

/-- C8 (amended): a name failing period extraction never makes the
storm-events run fail — the storm filters are total and exclude such a name
whenever they are applied — but with no filter applied the name is retained
rather than excluded; in the NCEI tool the period parse only happens inside
an active filter, where an unparseable name raises and fails the run. -/
theorem c8_amended_unparseable :
    (∀ (files : List String) (y : Int), y ≠ 0 →
      ∀ f ∈ stormApplySince files (some y), extract_year_from_filename f ≠ none) ∧
    (∀ (files : List String) (m : Int), m ≠ 0 → Int.fdiv m 100 ≠ 0 →
      ∀ f ∈ stormApplyWm files (some m), extract_year_from_filename f ≠ none) ∧
    (∀ files : List String, stormApplySince files none = files) ∧
    (∀ (files : List String) (y : Int) (f : String), y ≠ 0 → f ∈ files →
      nceiSinceKey f = none → nceiApplySince files (some y) = Except.error ()) := by
  refine ⟨?_, ?_, ?_, ?_⟩
  · intro files y hy f hf
    simp only [stormApplySince, if_neg hy] at hf
    have := (List.mem_filter.mp hf).2
    match hk : extract_year_from_filename f with
    | none => simp [stormKeep, hk] at this
    | some k => simp [hk]
  · intro files m hm hmy f hf
    simp only [stormApplyWm, if_neg hm, if_neg hmy] at hf
    have := (List.mem_filter.mp hf).2
    match hk : extract_year_from_filename f with
    | none => simp [stormKeep, hk] at this
    | some k => simp [hk]
  · intro files; rfl
  · intro files y f hy hf hnone
    simp only [nceiApplySince, if_neg hy]
    exact nceiFilterGE_err nceiSinceKey y files f hf hnone

/-- C8 (witness): the amended theorem at a concrete storm listing holding
one well-formed and one unextractable name, with `since_year = 2000`: the
surviving candidate has an extractable year. -/
theorem c8_witness :
    ∀ f ∈ stormApplySince
      ["StormEvents_details-weird.csv.gz",
       "StormEvents_details-ftp_v1.0_d2020_c20200101.csv.gz"] (some 2000),
      extract_year_from_filename f ≠ none :=
  c8_amended_unparseable.1
    ["StormEvents_details-weird.csv.gz",
     "StormEvents_details-ftp_v1.0_d2020_c20200101.csv.gz"] 2000 (by decide)

theorem queueFiles_append {α : Type} (a b : List (Item α)) :
    queueFiles (a ++ b) = queueFiles a ++ queueFiles b := by
  simp [queueFiles, List.filterMap_append]

theorem queueFiles_cons_file {α : Type} (f : α) (rest : List (Item α)) :
    queueFiles (Item.file f :: rest) = f :: queueFiles rest := by
  simp [queueFiles]

theorem queueFiles_cons_term {α : Type} (rest : List (Item α)) :
    queueFiles (Item.term :: rest) = queueFiles rest := by
  simp [queueFiles]

theorem queueFiles_nil {α : Type} : queueFiles ([] : List (Item α)) = [] := rfl

/-- The pipeline invariant holds initially. -/
theorem pipeInv_init {α : Type} [DecidableEq α] (files : List α) :
    PipeInv files (initM files) := by
  refine ⟨?_, ?_, ?_, ?_, ?_, ?_, ?_, ?_, ?_⟩
  · simp [initM]
  · intro f; simp [initM, occ_nil, optList, queueFiles_nil]
  · intro _; rfl
  · intro _; rfl
  · intro hc; exact absurd hc (by simp [initM])
  · intro f; simp [initM, occ_nil]
  · intro _; rfl
  · intro hc; exact absurd hc (by simp [initM])
  · exact ⟨[], rfl, by simp [initM, optList]⟩


/-- The pipeline invariant is preserved by every interleaved step. -/
theorem pipeInv_step {α : Type} [DecidableEq α] {files : List α} {s t : MState α}
    (hI : PipeInv files s) (hS : Step s t) : PipeInv files t := by
  obtain ⟨hq, hacct, hhold, hbusy, hclean, hcp, hlive, hdone, hsub⟩ := hI
  cases hS with
  | download f rest h1 h2 h3 h4 =>
    refine ⟨?_, ?_, ?_, ?_, ?_, ?_, ?_, ?_, ?_⟩ <;> dsimp only
    · exact hq
    · intro g
      have hg := hacct g
      rw [h2] at hg
      rw [occ_append]
      simp only [optList, occ_nil, occ_cons] at hg ⊢
      by_cases hfg : f = g <;> simp [hfg] at hg ⊢ <;> omega
    · intro hne; exact absurd h1 hne
    · exact hbusy
    · intro hc
      rw [(hclean hc).1] at h1
      exact Fphase.noConfusion h1
    · intro g
      have hg := hcp g
      rw [h4] at hg
      rw [occ_append]
      simp only [occ_nil, occ_cons] at hg ⊢
      by_cases hfg : f = g <;> simp [hfg] at hg ⊢ <;> omega
    · exact hlive
    · exact hdone
    · obtain ⟨dn, hdn, hsl⟩ := hsub
      rw [h2] at hsl
      simp only [optList, List.append_nil] at hsl
      refine ⟨dn ++ [f], ?_, ?_⟩
      · rw [hdn, h4]; simp
      · simpa [optList] using hsl.append (List.Sublist.refl [f])
  | stopPre h1 h2 h3 =>
    refine ⟨hq, hacct, fun _ => h2, hbusy, ?_, hcp, hlive, hdone, hsub⟩
    intro hc
    rw [(hclean hc).1] at h1
    exact Fphase.noConfusion h1
  | exhaust h1 h2 h3 =>
    refine ⟨hq, hacct, fun _ => h2, hbusy, ?_, hcp, hlive, hdone, hsub⟩
    intro hc
    rw [(hclean hc).1] at h1
    exact Fphase.noConfusion h1
  | fetchErr f rest h1 h2 h3 h4 =>
    refine ⟨hq, hacct, fun _ => h2, hbusy, ?_, hcp, hlive, hdone, hsub⟩
    intro hc
    rw [(hclean hc).1] at h1
    exact Fphase.noConfusion h1
  | checkPass f h1 h2 h3 h4 =>
    exact ⟨hq, hacct, hhold, hbusy, hclean, hcp, hlive, hdone, hsub⟩
  | checkStop f h1 h2 h3 h4 =>
    refine ⟨?_, ?_, ?_, ?_, ?_, ?_, ?_, ?_, ?_⟩ <;> dsimp only
    · exact hq
    · intro g
      have hg := hacct g
      rw [h2] at hg
      rw [occ_append]
      simp only [optList, occ_nil, occ_cons] at hg ⊢
      by_cases hfg : f = g <;> simp [hfg] at hg ⊢ <;> omega
    · intro _; rfl
    · exact hbusy
    · intro hc
      rw [(hclean hc).1] at h1
      exact Fphase.noConfusion h1
    · exact hcp
    · exact hlive
    · exact hdone
    · obtain ⟨dn, hdn, hsl⟩ := hsub
      rw [h2] at hsl
      simp only [optList] at hsl
      refine ⟨dn, hdn, ?_⟩
      simp only [optList, List.append_nil]
      exact (List.sublist_append_left _ [f]).trans hsl
  | push f h1 h2 h3 h4 =>
    refine ⟨?_, ?_, ?_, ?_, ?_, ?_, ?_, ?_, ?_⟩ <;> dsimp only
    · simp only [List.length_append, List.length_singleton]; omega
    · intro g
      have hg := hacct g
      rw [h2] at hg
      rw [queueFiles_append, queueFiles_cons_file, queueFiles_nil, occ_append]
      simp only [optList, occ_nil, occ_cons] at hg ⊢
      by_cases hfg : f = g <;> simp [hfg] at hg ⊢ <;> omega
    · intro hne; exact absurd h1 hne
    · exact hbusy
    · intro hc
      rw [(hclean hc).1] at h1
      exact Fphase.noConfusion h1
    · exact hcp
    · intro hc
      have hl := hlive hc
      rw [queueFiles_append, queueFiles_cons_file, queueFiles_nil, hl]
      simp
    · intro hc
      rw [(hclean hc).1] at h1
      exact Fphase.noConfusion h1
    · obtain ⟨dn, hdn, hsl⟩ := hsub
      rw [h2] at hsl
      simp only [optList] at hsl
      exact ⟨dn, hdn, by simpa [optList] using hsl⟩
  | pushTerm h1 h2 =>
    refine ⟨?_, ?_, ?_, ?_, ?_, ?_, ?_, ?_, ?_⟩ <;> dsimp only
    · simp only [List.length_append, List.length_singleton]; omega
    · intro g
      rw [queueFiles_append, queueFiles_cons_term, queueFiles_nil, List.append_nil]
      exact hacct g
    · intro _
      exact hhold (by simp [h1])
    · exact hbusy
    · intro hc
      rw [(hclean hc).1] at h1
      exact Fphase.noConfusion h1
    · exact hcp
    · intro hc
      have hl := hlive hc
      rw [queueFiles_append, queueFiles_cons_term, queueFiles_nil, List.append_nil]
      exact hl
    · intro hc
      rw [(hclean hc).1] at h1
      exact Fphase.noConfusion h1
    · exact hsub
  | sigint h1 =>
    exact ⟨hq, hacct, hhold, hbusy, hclean, hcp, hlive, hdone, hsub⟩
  | takeFile f rest h1 h2 h3 =>
    refine ⟨?_, ?_, ?_, ?_, ?_, ?_, ?_, ?_, ?_⟩ <;> dsimp only
    · rw [h3] at hq; simp at hq; omega
    · intro g
      have hg := hacct g
      rw [h2, h3, queueFiles_cons_file] at hg
      simp only [optList, occ_nil, occ_cons] at hg ⊢
      by_cases hfg : f = g <;> simp [hfg] at hg ⊢ <;> omega
    · exact hhold
    · intro hc; rw [h1] at hc; exact Bool.noConfusion hc
    · intro hc
      have hld := (hclean hc).2.1
      rw [h1] at hld
      exact Bool.noConfusion hld
    · exact hcp
    · intro hc
      have hl := hlive hc
      rw [h2, h3, queueFiles_cons_file] at hl
      simp only [optList] at hl ⊢
      simpa using hl
    · exact hdone
    · exact hsub
  | takeTerm rest h1 h2 h3 =>
    refine ⟨?_, ?_, ?_, ?_, ?_, ?_, ?_, ?_, ?_⟩ <;> dsimp only
    · rw [h3] at hq; simp at hq; omega
    · intro g
      have hg := hacct g
      rw [h3, queueFiles_cons_term] at hg
      exact hg
    · exact hhold
    · intro _; exact h2
    · intro hc
      have hqe := (hclean hc).2.2.1
      rw [hqe] at h3
      exact List.noConfusion h3
    · exact hcp
    · intro hc
      have hl := hlive hc
      rw [h3, queueFiles_cons_term] at hl
      exact hl
    · exact hdone
    · exact hsub
  | finishFile f h1 h2 =>
    refine ⟨?_, ?_, ?_, ?_, ?_, ?_, ?_, ?_, ?_⟩ <;> dsimp only
    · exact hq
    · intro g
      have hg := hacct g
      rw [h2] at hg
      rw [occ_append]
      simp only [optList, occ_nil, occ_cons] at hg ⊢
      by_cases hfg : f = g <;> simp [hfg] at hg ⊢ <;> omega
    · exact hhold
    · intro _; rfl
    · intro hc
      have hld := (hclean hc).2.1
      rw [h1] at hld
      exact Bool.noConfusion hld
    · exact hcp
    · intro hc
      have hl := hlive hc
      rw [h2] at hl
      simp only [optList] at hl ⊢
      simp only [List.append_assoc, List.nil_append, List.append_nil] at hl ⊢
      exact hl
    · intro hc
      have hld := (hclean hc).2.1
      rw [h1] at hld
      exact Bool.noConfusion hld
    · exact hsub
  | stopExit h1 h2 h3 h4 =>
    refine ⟨hq, hacct, hhold, fun _ => h2, ?_, hcp, hlive, hdone, hsub⟩
    intro hc
    have hld := (hclean hc).2.1
    rw [h1] at hld
    exact Bool.noConfusion hld
  | cleanup h1 h2 h3 =>
    refine ⟨?_, ?_, ?_, ?_, ?_, ?_, ?_, ?_, ?_⟩ <;> dsimp only
    · simp
    · intro g
      have hg := hacct g
      rw [queueFiles_nil, occ_append]
      simp only [occ_nil] at hg ⊢
      omega
    · intro _
      exact hhold (by simp [h1])
    · exact hbusy
    · intro _
      exact ⟨h1, h2, rfl, hhold (by simp [h1]), hbusy h2⟩
    · exact hcp
    · intro hc; exact Bool.noConfusion hc
    · intro _
      exact ⟨optList s.busy ++ queueFiles s.queue, by rw [hlive h3]; simp⟩
    · exact hsub

/-- The invariant holds in every reachable state of a run. -/
theorem pipeInv_reaches {α : Type} [DecidableEq α] {files : List α} {s : MState α}
    (h : Reaches (initM files) s) : PipeInv files s := by
  induction h with
  | refl => exact pipeInv_init files
  | tail hr hs ih => exact pipeInv_step ih hs

theorem occ_eq_zero_of_not_mem {α : Type} [DecidableEq α] {l : List α} {f : α}
    (h : f ∉ l) : occ f l = 0 := by
  apply List.countP_eq_zero.mpr
  intro a ha
  simp only [decide_eq_true_eq]
  intro haf
  exact h (haf ▸ ha)

theorem occ_pos_of_mem {α : Type} [DecidableEq α] {l : List α} {f : α}
    (h : f ∈ l) : 0 < occ f l :=
  List.countP_pos_iff.mpr ⟨f, h, by simp⟩

theorem occ_le_one_of_nodup {α : Type} [DecidableEq α] {l : List α}
    (h : l.Nodup) (f : α) : occ f l ≤ 1 := by
  induction l with
  | nil => simp [occ]
  | cons x xs ih =>
    rw [occ_cons]
    rcases List.nodup_cons.mp h with ⟨hx, hxs⟩
    by_cases hxf : x = f
    · subst hxf
      rw [occ_eq_zero_of_not_mem hx]
      simp
    · simp only [hxf, if_false]
      have := ih hxs
      omega

/-- C5: at the end of any run of the pipeline (both loops done and the
staging directory cleaned up), every staging file the producer ever created
has been removed exactly once — by the producer's own stop-path removal, by
the consumer's `finally`, or by the staging-directory cleanup — whatever
interleaving of downloads, loads, signals and exits occurred. -/
theorem c5_staged_removed_exactly_once {α : Type} [DecidableEq α]
    (files : List α) (s : MState α) (hnd : files.Nodup)
    (hr : Reaches (initM files) s) (hc : s.cleaned = true) :
    ∀ f ∈ s.created, occ f s.removed = 1 := by
  intro f hf
  have inv := pipeInv_reaches hr
  obtain ⟨-, -, hqe, hhe, hbe⟩ := inv.cleanedFacts hc
  have hacct := inv.acct f
  rw [hqe, hhe, hbe] at hacct
  simp only [optList, queueFiles_nil, occ_nil] at hacct
  have hcp := inv.createdPending f
  have hle : occ f files ≤ 1 := occ_le_one_of_nodup hnd f
  have hpos : 0 < occ f s.created := occ_pos_of_mem hf
  omega

/-- A complete run of the pipeline on the single candidate `7`: download,
post-download check, push, list exhaustion, terminal marker, dequeue, load,
terminal dequeue, cleanup. -/
theorem c5Final_reachable : Reaches (initM [7]) c5Final := by
  have r0 : Reaches (initM [7]) (initM [7]) := Reaches.refl (initM [7])
  have r1 := Reaches.tail r0 (Step.download (initM [7]) 7 [] rfl rfl rfl rfl)
  have r2 := Reaches.tail r1 (Step.checkPass _ 7 rfl rfl rfl rfl)
  have r3 := Reaches.tail r2 (Step.push _ 7 rfl rfl rfl (by decide))
  have r4 := Reaches.tail r3 (Step.exhaust _ rfl rfl rfl)
  have r5 := Reaches.tail r4 (Step.pushTerm _ rfl (by decide))
  have r6 := Reaches.tail r5 (Step.takeFile _ 7 [Item.term] rfl rfl rfl)
  have r7 := Reaches.tail r6 (Step.finishFile _ 7 rfl rfl)
  have r8 := Reaches.tail r7 (Step.takeTerm _ [] rfl rfl rfl)
  have r9 := Reaches.tail r8 (Step.cleanup _ rfl rfl rfl)
  exact r9

/-- C5 (witness): in the completed one-file run, the staged file `7` was
created and its staging copy removed exactly once. -/
theorem c5_witness : occ 7 c5Final.removed = 1 :=
  c5_staged_removed_exactly_once [7] c5Final (by decide) c5Final_reachable rfl 7
    (by decide)

/-- With three candidates and an idle consumer, the producer can download a
third file while two sit in the queue. -/
theorem c7State_reachable : Reaches (initM [1, 2, 3]) c7State := by
  have r0 : Reaches (initM [1, 2, 3]) (initM [1, 2, 3]) := Reaches.refl _
  have r1 := Reaches.tail r0 (Step.download (initM [1, 2, 3]) 1 [2, 3] rfl rfl rfl rfl)
  have r2 := Reaches.tail r1 (Step.checkPass _ 1 rfl rfl rfl rfl)
  have r3 := Reaches.tail r2 (Step.push _ 1 rfl rfl rfl (by decide))
  have r4 := Reaches.tail r3 (Step.download _ 2 [3] rfl rfl rfl rfl)
  have r5 := Reaches.tail r4 (Step.checkPass _ 2 rfl rfl rfl rfl)
  have r6 := Reaches.tail r5 (Step.push _ 2 rfl rfl rfl (by decide))
  have r7 := Reaches.tail r6 (Step.download _ 3 [] rfl rfl rfl rfl)
  exact r7

/-- C7 (counterexample): the pipeline reaches a state in which three staged
files await load at once — two buffered in the capacity-2 channel and a
third already downloaded by the producer, which only then blocks on the
full channel.  The claimed bound of 2 staged files awaiting load is
exceeded. -/
theorem c7_counterexample :
    Reaches (initM [1, 2, 3]) c7State ∧ stagedAwaiting c7State = 3 ∧
      2 < stagedAwaiting c7State :=
  ⟨c7State_reachable, rfl, by decide⟩

/-- C7 (amended): in every reachable state the channel buffer holds at most
its capacity of 2 items, and at most 3 staged files await load at once —
the 2 buffered ones plus at most 1 the producer has downloaded and is
blocked pushing; the producer downloads at most that one further file
while the channel is full, then blocks. -/
theorem c7_amended_backpressure {α : Type} [DecidableEq α]
    (files : List α) (s : MState α) (hr : Reaches (initM files) s) :
    s.queue.length ≤ 2 ∧ stagedAwaiting s ≤ 3 := by
  have inv := pipeInv_reaches hr
  refine ⟨inv.qlen, ?_⟩
  have hlen : (queueFiles s.queue).length ≤ s.queue.length :=
    List.length_filterMap_le _ _
  have hq := inv.qlen
  unfold stagedAwaiting
  cases hh : s.hold <;> dsimp only <;> omega

/-- C7 (witness): the amended bounds at the concrete reachable state of the
counterexample — the queue holds 2 items and 3 staged files await load,
within the amended bound. -/
theorem c7_witness : c7State.queue.length ≤ 2 ∧ stagedAwaiting c7State ≤ 3 :=
  c7_amended_backpressure [1, 2, 3] c7State c7State_reachable

/-! ## Sorting and period-order lemmas -/

theorem lexLe_total : ∀ a b : List Char, lexLe a b = true ∨ lexLe b a = true := by
  intro a
  induction a with
  | nil => intro b; left; rfl
  | cons x xs ih =>
    intro b
    cases b with
    | nil => right; rfl
    | cons y ys =>
      simp only [lexLe]
      by_cases hxy : x.toNat < y.toNat
      · left; simp [hxy]
      · by_cases hyx : y.toNat < x.toNat
        · right; simp [hxy, hyx]
        · rcases ih ys with h | h
          · left; simp [hxy, hyx, h]
          · right; simp [hxy, hyx, h]

theorem lexLe_trans : ∀ a b c : List Char,
    lexLe a b = true → lexLe b c = true → lexLe a c = true := by
  intro a
  induction a with
  | nil => intro b c _ _; rfl
  | cons x xs ih =>
    intro b c hab hbc
    cases b with
    | nil => simp [lexLe] at hab
    | cons y ys =>
      cases c with
      | nil => simp [lexLe] at hbc
      | cons z zs =>
        simp only [lexLe] at hab hbc ⊢
        by_cases hxy : x.toNat < y.toNat
        · by_cases hyz : y.toNat < z.toNat
          · simp [show x.toNat < z.toNat by omega]
          · by_cases hzy : z.toNat < y.toNat
            · simp [hyz, hzy] at hbc
            · simp [show x.toNat < z.toNat by omega]
        · by_cases hyx : y.toNat < x.toNat
          · simp [hxy, hyx] at hab
          · by_cases hyz : y.toNat < z.toNat
            · simp [show x.toNat < z.toNat by omega]
            · by_cases hzy : z.toNat < y.toNat
              · simp [hyz, hzy] at hbc
              · simp [hxy, hyx] at hab
                simp [hyz, hzy] at hbc
                simp [show ¬ x.toNat < z.toNat by omega,
                      show ¬ z.toNat < x.toNat by omega]
                exact ih ys zs hab hbc

theorem strLe_trans {a b c : String} (h1 : strLe a b = true) (h2 : strLe b c = true) :
    strLe a c = true :=
  lexLe_trans a.data b.data c.data h1 h2

theorem mem_insertLex {z x : String} : ∀ {l : List String},
    z ∈ insertLex x l ↔ z = x ∨ z ∈ l := by
  intro l
  induction l with
  | nil => simp [insertLex]
  | cons y ys ih =>
    simp only [insertLex]
    split
    · simp [List.mem_cons]
    · simp only [List.mem_cons, ih]
      tauto

theorem pairwise_insertLex (x : String) : ∀ {l : List String},
    l.Pairwise (fun a b => strLe a b = true) →
    (insertLex x l).Pairwise (fun a b => strLe a b = true) := by
  intro l
  induction l with
  | nil => intro _; simp [insertLex]
  | cons y ys ih =>
    intro hp
    rcases List.pairwise_cons.mp hp with ⟨hy, hys⟩
    simp only [insertLex]
    by_cases hxy : strLe x y = true
    · rw [if_pos hxy]
      refine List.Pairwise.cons ?_ hp
      intro z hz
      rcases List.mem_cons.mp hz with h1 | hz'
      · subst h1; exact hxy
      · exact strLe_trans hxy (hy z hz')
    · rw [if_neg hxy]
      refine List.Pairwise.cons ?_ (ih hys)
      intro z hz
      rcases mem_insertLex.mp hz with h1 | hz'
      · rw [h1]
        rcases lexLe_total x.data y.data with h | h
        · exact absurd h hxy
        · exact h
      · exact hy z hz'

theorem pySort_sorted : ∀ files : List String,
    (pySort files).Pairwise (fun a b => strLe a b = true) := by
  intro files
  induction files with
  | nil => simp [pySort]
  | cons f rest ih => exact pairwise_insertLex f ih

theorem mem_pySort {z : String} : ∀ {files : List String},
    z ∈ pySort files ↔ z ∈ files := by
  intro files
  induction files with
  | nil => simp [pySort]
  | cons f rest ih =>
    show z ∈ insertLex f (pySort rest) ↔ _
    rw [mem_insertLex]
    simp [ih]

theorem lexLe_append_same : ∀ (p x y : List Char),
    lexLe (p ++ x) (p ++ y) = lexLe x y := by
  intro p
  induction p with
  | nil => intro x y; rfl
  | cons c cs ih =>
    intro x y
    simp only [List.cons_append, lexLe, lt_irrefl, if_false]
    exact ih x y

theorem digit_toNat_bounds {c : Char} (h : c.isDigit = true) :
    48 ≤ c.toNat ∧ c.toNat ≤ 57 := by
  simpa [Char.isDigit] using h

theorem digit_ne_dot {c : Char} (h : c.isDigit = true) : (c != '.') = true := by
  simp [Char.isDigit] at h
  simp [bne_iff_ne]
  intro hc
  rw [hc] at h
  simp [Char.toNat] at h

theorem natOfDigits_four (c1 c2 c3 c4 : Char) :
    natOfDigits [c1, c2, c3, c4] =
      ((digitVal c1 * 10 + digitVal c2) * 10 + digitVal c3) * 10 + digitVal c4 := by
  simp [natOfDigits, List.foldl]
  ring

/-- Lexicographic order of two strings that differ only from a common
position holding a 4-digit block orders the blocks numerically, whatever
follows them. -/
theorem lex4_key_le {a1 a2 a3 a4 b1 b2 b3 b4 : Char} {r s : List Char}
    (ha1 : a1.isDigit = true) (ha2 : a2.isDigit = true)
    (ha3 : a3.isDigit = true) (ha4 : a4.isDigit = true)
    (hb1 : b1.isDigit = true) (hb2 : b2.isDigit = true)
    (hb3 : b3.isDigit = true) (hb4 : b4.isDigit = true)
    (h : lexLe (a1 :: a2 :: a3 :: a4 :: r) (b1 :: b2 :: b3 :: b4 :: s) = true) :
    natOfDigits [a1, a2, a3, a4] ≤ natOfDigits [b1, b2, b3, b4] := by
  obtain ⟨l1, u1⟩ := digit_toNat_bounds ha1
  obtain ⟨l2, u2⟩ := digit_toNat_bounds ha2
  obtain ⟨l3, u3⟩ := digit_toNat_bounds ha3
  obtain ⟨l4, u4⟩ := digit_toNat_bounds ha4
  obtain ⟨m1, v1⟩ := digit_toNat_bounds hb1
  obtain ⟨m2, v2⟩ := digit_toNat_bounds hb2
  obtain ⟨m3, v3⟩ := digit_toNat_bounds hb3
  obtain ⟨m4, v4⟩ := digit_toNat_bounds hb4
  rw [natOfDigits_four, natOfDigits_four]
  simp only [digitVal]
  simp only [lexLe] at h
  by_cases h1 : a1.toNat < b1.toNat
  · omega
  · by_cases h1' : b1.toNat < a1.toNat
    · simp [h1, h1'] at h
    · by_cases h2 : a2.toNat < b2.toNat
      · omega
      · by_cases h2' : b2.toNat < a2.toNat
        · simp [h1, h1', h2, h2'] at h
        · by_cases h3 : a3.toNat < b3.toNat
          · omega
          · by_cases h3' : b3.toNat < a3.toNat
            · simp [h1, h1', h2, h2', h3, h3'] at h
            · by_cases h4 : a4.toNat < b4.toNat
              · omega
              · by_cases h4' : b4.toNat < a4.toNat
                · simp [h1, h1', h2, h2', h3, h3', h4, h4'] at h
                · omega

/-- The watermark-filter key of a well-formed NCEI name is the numeric value
of its 4-digit year. -/
theorem nceiWmKey_wf {f : String} {c1 c2 c3 c4 : Char}
    (h1 : c1.isDigit = true) (h2 : c2.isDigit = true)
    (h3 : c3.isDigit = true) (h4 : c4.isDigit = true)
    (hd : f.data = [c1, c2, c3, c4] ++ ".csv.gz".data) :
    nceiWmKey f = some ((natOfDigits [c1, c2, c3, c4] : Nat) : Int) := by
  unfold nceiWmKey
  rw [hd]
  rw [show (".csv.gz".data) = '.' :: "csv.gz".data from rfl]
  simp only [List.cons_append, List.nil_append]
  rw [List.takeWhile_cons, if_pos (digit_ne_dot h1)]
  rw [List.takeWhile_cons, if_pos (digit_ne_dot h2)]
  rw [List.takeWhile_cons, if_pos (digit_ne_dot h3)]
  rw [List.takeWhile_cons, if_pos (digit_ne_dot h4)]
  rw [List.takeWhile_cons, if_neg (by simp)]
  simp [pyIntDigits, h1, h2, h3, h4]

/-- The extracted year of a well-formed storm-events name is the numeric
value of the 4-digit block after `_d`. -/
theorem stormKey_wf {f : String} {c1 c2 c3 c4 : Char} {r : List Char}
    (h1 : c1.isDigit = true) (h2 : c2.isDigit = true)
    (h3 : c3.isDigit = true) (h4 : c4.isDigit = true)
    (hd : f.data = "StormEvents_details-ftp_v1.0_d".data ++ [c1, c2, c3, c4] ++ '_' :: r) :
    extract_year_from_filename f = some ((natOfDigits [c1, c2, c3, c4] : Nat) : Int) := by
  unfold extract_year_from_filename
  rw [hd]
  rw [show "StormEvents_details-ftp_v1.0_d".data =
    ['S', 't', 'o', 'r', 'm', 'E', 'v', 'e', 'n', 't', 's', '_', 'd', 'e', 't',
     'a', 'i', 'l', 's', '-', 'f', 't', 'p', '_', 'v', '1', '.', '0', '_', 'd']
    from rfl]
  simp only [List.cons_append, List.nil_append]
  rw [natOfDigits_four]
  simp [extractYearAux, matchD, h1, h2, h3, h4]

/-- C6 (counterexample): two storm-events names that both match the listing
glob and both carry an extractable period key sort alphabetically into
*descending* period order, because their prefixes differ before the year
block — the candidate list handed to the producer is not ascending by
period key. -/
theorem c6_counterexample :
    pySort ["StormEvents_detailsA_d1999_c1.csv.gz",
            "StormEvents_details-ftp_v1.0_d2000_c20000101.csv.gz"] =
      ["StormEvents_details-ftp_v1.0_d2000_c20000101.csv.gz",
       "StormEvents_detailsA_d1999_c1.csv.gz"] ∧
    (pySort ["StormEvents_detailsA_d1999_c1.csv.gz",
             "StormEvents_details-ftp_v1.0_d2000_c20000101.csv.gz"]).map
      (keyD extract_year_from_filename) = [2000, 1999] ∧
    ¬ ((pySort ["StormEvents_detailsA_d1999_c1.csv.gz",
                "StormEvents_details-ftp_v1.0_d2000_c20000101.csv.gz"]).map
        (keyD extract_year_from_filename)).Pairwise (fun a b => a ≤ b) := by
  refine ⟨by decide, by decide, ?_⟩
  intro h
  rw [show (pySort ["StormEvents_detailsA_d1999_c1.csv.gz",
    "StormEvents_details-ftp_v1.0_d2000_c20000101.csv.gz"]).map
      (keyD extract_year_from_filename) = [(2000 : Int), 1999] from by decide] at h
  have := (List.pairwise_cons.mp h).1 1999 (by simp)
  omega

/-- C6 (amended): the candidate list handed to the producer is sorted
ascending by *filename*; when every listed name follows its dataset's
standard fixed-format naming scheme this coincides with ascending period
order (for both tools), though listings with non-standard names matching
the extraction pattern can break period order; and in every run the
transfer is FIFO: the consumer's insert sequence is always a prefix of the
producer's push sequence, which itself follows the candidate-list order. -/
theorem c6_amended_order :
    (∀ listing : List String,
      (pySort listing).Pairwise (fun a b => strLe a b = true)) ∧
    (∀ listing : List String, (∀ f ∈ listing, nceiWF f) →
      ((pySort listing).map (keyD nceiWmKey)).Pairwise (fun a b => a ≤ b)) ∧
    (∀ listing : List String, (∀ f ∈ listing, stormWF f) →
      ((pySort listing).map (keyD extract_year_from_filename)).Pairwise
        (fun a b => a ≤ b)) ∧
    (∀ (fs : List String) (s : MState String), Reaches (initM fs) s →
      (∃ r, s.pushed = s.loaded ++ r) ∧ List.Sublist s.pushed fs) := by
  refine ⟨pySort_sorted, ?_, ?_, ?_⟩
  · intro listing hwf
    rw [List.pairwise_map]
    refine (pySort_sorted listing).imp_of_mem ?_
    intro a b ha hb hab
    obtain ⟨a1, a2, a3, a4, ha1, ha2, ha3, ha4, hda⟩ := hwf a (mem_pySort.mp ha)
    obtain ⟨b1, b2, b3, b4, hb1, hb2, hb3, hb4, hdb⟩ := hwf b (mem_pySort.mp hb)
    rw [keyD, keyD, nceiWmKey_wf ha1 ha2 ha3 ha4 hda,
        nceiWmKey_wf hb1 hb2 hb3 hb4 hdb]
    simp only [Option.getD_some]
    have hlex : lexLe (a1 :: a2 :: a3 :: a4 :: ".csv.gz".data)
        (b1 :: b2 :: b3 :: b4 :: ".csv.gz".data) = true := by
      have : strLe a b = true := hab
      rw [strLe, hda, hdb] at this
      simpa using this
    exact_mod_cast lex4_key_le ha1 ha2 ha3 ha4 hb1 hb2 hb3 hb4 hlex
  · intro listing hwf
    rw [List.pairwise_map]
    refine (pySort_sorted listing).imp_of_mem ?_
    intro a b ha hb hab
    obtain ⟨a1, a2, a3, a4, ra, ha1, ha2, ha3, ha4, hda⟩ := hwf a (mem_pySort.mp ha)
    obtain ⟨b1, b2, b3, b4, rb, hb1, hb2, hb3, hb4, hdb⟩ := hwf b (mem_pySort.mp hb)
    rw [keyD, keyD, stormKey_wf ha1 ha2 ha3 ha4 hda, stormKey_wf hb1 hb2 hb3 hb4 hdb]
    simp only [Option.getD_some]
    have hlex : lexLe (a1 :: a2 :: a3 :: a4 :: '_' :: ra)
        (b1 :: b2 :: b3 :: b4 :: '_' :: rb) = true := by
      have hs : strLe a b = true := hab
      rw [strLe, hda, hdb] at hs
      rw [List.append_assoc, List.append_assoc, lexLe_append_same] at hs
      simpa using hs
    exact_mod_cast lex4_key_le ha1 ha2 ha3 ha4 hb1 hb2 hb3 hb4 hlex
  · intro fs s hr
    have inv := pipeInv_reaches hr
    constructor
    · cases hc : s.cleaned
      · exact ⟨optList s.busy ++ queueFiles s.queue, by rw [inv.pushOrdLive hc]; simp⟩
      · exact inv.pushOrdDone hc
    · obtain ⟨dn, hdn, hsl⟩ := inv.pushSub
      have h1 : List.Sublist s.pushed dn :=
        (List.sublist_append_left _ _).trans hsl
      have h2 : List.Sublist dn fs := by
        rw [hdn]
        exact List.sublist_append_left dn s.pending
      exact h1.trans h2

/-- C6 (witness): the amended theorem at concrete inputs — a well-formed
NCEI listing, a well-formed storm-events listing, and the initial pipeline
state of a run. -/
theorem c6_witness :
    ((pySort ["2020.csv.gz", "1999.csv.gz"]).map (keyD nceiWmKey)).Pairwise
      (fun a b => a ≤ b) ∧
    ((pySort ["StormEvents_details-ftp_v1.0_d2021_c20210101.csv.gz",
              "StormEvents_details-ftp_v1.0_d2019_c20190101.csv.gz"]).map
       (keyD extract_year_from_filename)).Pairwise (fun a b => a ≤ b) ∧
    ((∃ r, (initM ["2020.csv.gz"] : MState String).pushed =
        (initM ["2020.csv.gz"] : MState String).loaded ++ r) ∧
      List.Sublist (initM ["2020.csv.gz"] : MState String).pushed ["2020.csv.gz"]) := by
  refine ⟨?_, ?_, ?_⟩
  · apply c6_amended_order.2.1
    intro f hf
    rcases List.mem_cons.mp hf with h | h
    · rw [h]
      exact ⟨'2', '0', '2', '0', by decide, by decide, by decide, by decide, rfl⟩
    · rw [List.mem_singleton.mp h]
      exact ⟨'1', '9', '9', '9', by decide, by decide, by decide, by decide, rfl⟩
  · apply c6_amended_order.2.2.1
    intro f hf
    rcases List.mem_cons.mp hf with h | h
    · rw [h]
      exact ⟨'2', '0', '2', '1', "c20210101.csv.gz".data,
        by decide, by decide, by decide, by decide, rfl⟩
    · rw [List.mem_singleton.mp h]
      exact ⟨'2', '0', '1', '9', "c20190101.csv.gz".data,
        by decide, by decide, by decide, by decide, rfl⟩
  · exact c6_amended_order.2.2.2 ["2020.csv.gz"] (initM ["2020.csv.gz"])
      (Reaches.refl _)
